import Mathlib

/-
Verification of the strategic video-frame sampler of
src/utils/video_processor.py: the function `extract_strategic_frames`
(lines 138-294) together with the scene-change scan embedded in it
(lines 186-234).

Modelling conventions.
* Times, durations and pixel intensities are rationals; Python floats are
  idealised as exact arithmetic.
* A decoded frame is modelled by its flattened single-channel intensity
  buffer; the BGR-to-grayscale conversion (cv2.cvtColor, lines 214-215) is
  the external decoding collaborator's boundary, so the scan receives the
  intensity values directly.
* The sampler returns frames and timestamps in lockstep (every append at
  lines 165-166, 251-252, 277-278, 286-287 pushes one frame and its
  timestamp), so the model tracks the timestamp list only.
* `extractPure` is the all-decodes-succeed behaviour, parametric in the
  list `scene_timestamps` produced by scene detection (empty when the
  detection was skipped, raised, or found nothing).  `extractE` adds the
  Python exception behaviour: a Boolean oracle says which `get_frame`
  calls succeed, and the outcome of the whole try-block scene-detection
  step (lines 171-257) is an `Except` parameter.  `extractFull` composes
  the scan with the sampler.
-/

/-- A decoded frame: its flattened single-channel intensity buffer. -/
abbrev Frame := List ℚ

/-- Line 164: `first_time = min(0.5, duration * 0.1)`. -/
def firstTime (d : ℚ) : ℚ := min (1/2) (d * (1/10))

/-- Line 282: `last_time = max(duration - 0.5, duration * 0.9)`. -/
def lastTime (d : ℚ) : ℚ := max (d - 1/2) (d * (9/10))

/-- Lines 274 and 285: `not any(abs(t - u) < 1.0 for u in ts)`, i.e. the
candidate `t` keeps at least 1.0s distance from every already chosen
timestamp. -/
def farFrom (ts : List ℚ) (t : ℚ) : Bool :=
  ts.all fun u => decide (1 ≤ |t - u|)

/-- Line 242: `sorted(set(scene_timestamps))`. -/
def sortedSet (xs : List ℚ) : List ℚ :=
  List.insertionSort (· ≤ ·) xs.dedup

/-- Lines 244-250: keep a scene candidate unless it is within 1.0s of
`first_time` (line 246) or within 1.0s of the end of the video (line 249). -/
def sceneAccept (d ft : ℚ) (cands : List ℚ) : List ℚ :=
  cands.filter fun t => decide (1 ≤ |t - ft|) && decide (1 ≤ d - t)

/-- One iteration of the uniform-fallback loop (lines 269-279): the
candidate timestamp is `min(first_time + i*step, duration - 1)` (line 271)
and is appended unless within 1.0s of an existing timestamp (line 274). -/
def uniformStep (d ft step : ℚ) (ts : List ℚ) (i : ℕ) : List ℚ :=
  let t := min (ft + (i : ℚ) * step) (d - 1)
  if farFrom ts t then ts ++ [t] else ts

/-- The whole uniform-fallback loop, lines 269-279. -/
def uniformFill (d ft step : ℚ) (ts : List ℚ) (idxs : List ℕ) : List ℚ :=
  idxs.foldl (uniformStep d ft step) ts

/-- Lines 281-287: append the end anchor unless it is within 1.0s of an
already chosen timestamp. -/
def addLast (d : ℚ) (ts : List ℚ) : List ℚ :=
  if farFrom ts (lastTime d) then ts ++ [lastTime d] else ts

/-- Timestamps collected after the scene-detection step: the first anchor
(lines 163-166) followed by the accepted scene candidates (lines 240-252,
executed only under the gate `duration > 3 and middle_frames > 0` of
line 170). -/
def stage1 (d : ℚ) (mf : ℤ) (scene : List ℚ) : List ℚ :=
  if 3 < d ∧ 0 < mf - 2 then
    firstTime d :: sceneAccept d (firstTime d) ((sortedSet scene).take (mf - 2).toNat)
  else [firstTime d]

/-- Timestamps after the uniform-fallback step (lines 260-279):
`remaining = max_frames - 1 - len(frames)` and `step = duration / (remaining + 2)`. -/
def stage2 (d : ℚ) (mf : ℤ) (scene : List ℚ) : List ℚ :=
  let ts1 := stage1 d mf scene
  if (ts1.length : ℤ) < mf - 1 then
    uniformFill d (firstTime d) (d / (((mf - 1 - (ts1.length : ℤ)) + 2 : ℤ) : ℚ)) ts1
      (List.range' 1 (mf - 1 - (ts1.length : ℤ)).toNat)
  else ts1

/-- The timestamps returned by `extract_strategic_frames(video, options,
max_frames)` when every `get_frame` call succeeds, parametric in the list
`scene_timestamps` that the scene-change scan produced.  Lines 152-153
(empty result for `duration <= 0`), then the three collection stages, then
the final sort by timestamp (lines 289-294). -/
def extractPure (d : ℚ) (mf : ℤ) (scene : List ℚ) : List ℚ :=
  if d ≤ 0 then [] else
    List.insertionSort (· ≤ ·) (addLast d (stage2 d mf scene))

/-- When the gate of line 170 is closed the scene list is never read, so
the sampler's output does not depend on it. -/
theorem extractPure_scene_irrel (d : ℚ) (mf : ℤ) (scene : List ℚ)
    (h : ¬ (3 < d ∧ 0 < mf - 2)) :
    extractPure d mf scene = extractPure d mf [] := by
  have h1 : stage1 d mf scene = stage1 d mf [] := by
    simp only [stage1, if_neg h]
  simp only [extractPure, stage2, h1]

/-- C6: for a 2-second video with `max_frames = 7` (all decodes
succeeding), scene detection is skipped (`duration <= 3`), every
uniform-fallback candidate is discarded by the 1.0s spacing check, and the
result is exactly the two anchor timestamps `[0.2, 1.8]`. -/
theorem short_video_two_anchor_result (scene : List ℚ) :
    extractPure 2 7 scene = [1/5, 9/5] := by
  have h := extractPure_scene_irrel 2 7 scene (by norm_num)
  rw [h]
  with_unfolding_all rfl

/-- Elements that pass the `farFrom` check are at least 1.0 away from every
already chosen timestamp. -/
theorem farFrom_far {ts : List ℚ} {t : ℚ} (h : farFrom ts t = true) :
    ∀ u ∈ ts, 1 ≤ |t - u| := by
  intro u hu
  exact of_decide_eq_true (List.all_eq_true.mp h u hu)

theorem farFrom_not_mem {ts : List ℚ} {t : ℚ} (h : farFrom ts t = true) :
    t ∉ ts := by
  intro hm
  have h1 := farFrom_far h t hm
  simp only [sub_self, abs_zero] at h1
  norm_num at h1

theorem farFrom_false {ts : List ℚ} {t : ℚ} (h : farFrom ts t = false) :
    ∃ u ∈ ts, |t - u| < 1 := by
  by_contra hc
  push_neg at hc
  have : farFrom ts t = true :=
    List.all_eq_true.mpr fun u hu => decide_eq_true (hc u hu)
  rw [this] at h
  exact Bool.noConfusion h

theorem sortedSet_nodup (xs : List ℚ) : (sortedSet xs).Nodup :=
  (List.perm_insertionSort _ _).nodup_iff.mpr (List.nodup_dedup xs)

theorem sortedSet_subset {x : ℚ} {xs : List ℚ} (h : x ∈ sortedSet xs) :
    x ∈ xs :=
  List.mem_dedup.mp ((List.perm_insertionSort (· ≤ ·) xs.dedup).mem_iff.mp h)

theorem sceneAccept_mem {d ft x : ℚ} {l : List ℚ} (h : x ∈ sceneAccept d ft l) :
    x ∈ l ∧ 1 ≤ |x - ft| ∧ 1 ≤ d - x := by
  have h1 := List.mem_filter.mp h
  have h2 := h1.2
  simp only [Bool.and_eq_true, decide_eq_true_eq] at h2
  exact ⟨h1.1, h2.1, h2.2⟩

theorem nodup_append_one {ts : List ℚ} {t : ℚ} (h : ts.Nodup) (ht : t ∉ ts) :
    (ts ++ [t]).Nodup := by
  rw [List.nodup_append]
  exact ⟨h, List.nodup_singleton t, fun a ha hb => by
    simp only [List.mem_singleton] at hb
    exact ht (hb ▸ ha)⟩

theorem stage1_nodup (d : ℚ) (mf : ℤ) (scene : List ℚ) :
    (stage1 d mf scene).Nodup := by
  unfold stage1
  split_ifs with h
  · refine List.nodup_cons.mpr ⟨?_, ?_⟩
    · intro hm
      have h1 := (sceneAccept_mem hm).2.1
      simp only [sub_self, abs_zero] at h1
      norm_num at h1
    · exact List.Sublist.nodup
        ((List.filter_sublist _).trans (List.take_sublist _ _))
        (sortedSet_nodup scene)
  · exact List.nodup_singleton _

theorem uniformStep_nodup {d ft step : ℚ} {ts : List ℚ} (h : ts.Nodup) (i : ℕ) :
    (uniformStep d ft step ts i).Nodup := by
  simp only [uniformStep]
  split_ifs with hf
  · exact nodup_append_one h (farFrom_not_mem hf)
  · exact h

theorem uniformFill_nodup (d ft step : ℚ) (idxs : List ℕ) :
    ∀ ts : List ℚ, ts.Nodup → (uniformFill d ft step ts idxs).Nodup := by
  induction idxs with
  | nil => exact fun ts h => h
  | cons i is ih => exact fun ts h => ih _ (uniformStep_nodup h i)

theorem stage2_nodup (d : ℚ) (mf : ℤ) (scene : List ℚ) :
    (stage2 d mf scene).Nodup := by
  simp only [stage2]
  split_ifs with h
  · exact uniformFill_nodup _ _ _ _ _ (stage1_nodup d mf scene)
  · exact stage1_nodup d mf scene

theorem addLast_nodup {d : ℚ} {ts : List ℚ} (h : ts.Nodup) :
    (addLast d ts).Nodup := by
  unfold addLast
  split_ifs with hf
  · exact nodup_append_one h (farFrom_not_mem hf)
  · exact h

/-- C3: for every duration, every maxFrames and every list of scene
candidates reported by the detector, the timestamps returned by
`extract_strategic_frames` are strictly increasing after the final sort:
no two returned entries share a timestamp and the order is ascending. -/
theorem timestamps_strictly_increasing (d : ℚ) (mf : ℤ) (scene : List ℚ) :
    List.Sorted (· < ·) (extractPure d mf scene) := by
  unfold extractPure
  split_ifs with h
  · exact List.sorted_nil
  · have hs : List.Sorted (· ≤ ·)
        (List.insertionSort (· ≤ ·) (addLast d (stage2 d mf scene))) :=
      List.sorted_insertionSort _ _
    have hn : (List.insertionSort (· ≤ ·) (addLast d (stage2 d mf scene))).Nodup :=
      (List.perm_insertionSort _ _).nodup_iff.mpr
        (addLast_nodup (stage2_nodup d mf scene))
    exact List.Pairwise.imp (fun hab => lt_of_le_of_ne hab.1 hab.2)
      (List.Pairwise.and hs hn)

theorem uniformStep_length_le (d ft step : ℚ) (ts : List ℚ) (i : ℕ) :
    (uniformStep d ft step ts i).length ≤ ts.length + 1 := by
  simp only [uniformStep]
  split_ifs <;> simp

theorem uniformFill_length_le (d ft step : ℚ) (idxs : List ℕ) :
    ∀ ts : List ℚ,
      (uniformFill d ft step ts idxs).length ≤ ts.length + idxs.length := by
  induction idxs with
  | nil => intro ts; simp [uniformFill]
  | cons i is ih =>
    intro ts
    have h1 : uniformFill d ft step ts (i :: is)
        = uniformFill d ft step (uniformStep d ft step ts i) is := rfl
    have h2 := ih (uniformStep d ft step ts i)
    have h3 := uniformStep_length_le d ft step ts i
    rw [h1]
    simp only [List.length_cons]
    omega

theorem uniformStep_mem {d ft step : ℚ} {ts : List ℚ} {a : ℚ} (h : a ∈ ts)
    (i : ℕ) : a ∈ uniformStep d ft step ts i := by
  simp only [uniformStep]
  split_ifs
  · exact List.mem_append_left _ h
  · exact h

theorem uniformFill_mem (d ft step : ℚ) (idxs : List ℕ) :
    ∀ {ts : List ℚ} {a : ℚ}, a ∈ ts → a ∈ uniformFill d ft step ts idxs := by
  induction idxs with
  | nil => exact fun h => h
  | cons i is ih => exact fun h => ih (uniformStep_mem h i)

theorem addLast_mem {d : ℚ} {ts : List ℚ} {a : ℚ} (h : a ∈ ts) :
    a ∈ addLast d ts := by
  unfold addLast
  split_ifs
  · exact List.mem_append_left _ h
  · exact h

theorem mem_stage1_first (d : ℚ) (mf : ℤ) (scene : List ℚ) :
    firstTime d ∈ stage1 d mf scene := by
  unfold stage1
  split_ifs
  · exact List.mem_cons_self _ _
  · exact List.mem_singleton.mpr rfl

theorem stage2_mem {d : ℚ} {mf : ℤ} {scene : List ℚ} {a : ℚ}
    (h : a ∈ stage1 d mf scene) : a ∈ stage2 d mf scene := by
  simp only [stage2]
  split_ifs
  · exact uniformFill_mem _ _ _ _ h
  · exact h

theorem mem_extractPure {d : ℚ} {mf : ℤ} {scene : List ℚ} {a : ℚ}
    (hd : ¬ d ≤ 0) (h : a ∈ addLast d (stage2 d mf scene)) :
    a ∈ extractPure d mf scene := by
  unfold extractPure
  rw [if_neg hd]
  exact (List.perm_insertionSort _ _).mem_iff.mpr h

theorem stage1_length (d : ℚ) (mf : ℤ) (scene : List ℚ) (hmf : 2 ≤ mf) :
    ((stage1 d mf scene).length : ℤ) ≤ mf - 1 := by
  unfold stage1
  split_ifs with h
  · have h1 : (sceneAccept d (firstTime d)
        ((sortedSet scene).take (mf - 2).toNat)).length ≤ (mf - 2).toNat := by
      calc (sceneAccept d (firstTime d)
            ((sortedSet scene).take (mf - 2).toNat)).length
          ≤ ((sortedSet scene).take (mf - 2).toNat).length :=
            List.length_filter_le _ _
        _ ≤ (mf - 2).toNat := by
            rw [List.length_take]
            exact min_le_left _ _
    simp only [List.length_cons]
    omega
  · simp only [List.length_singleton]
    omega

theorem stage2_length (d : ℚ) (mf : ℤ) (scene : List ℚ) (hmf : 2 ≤ mf) :
    ((stage2 d mf scene).length : ℤ) ≤ mf - 1 := by
  have h1 := stage1_length d mf scene hmf
  simp only [stage2]
  split_ifs with h
  · have h2 := uniformFill_length_le d (firstTime d)
      (d / (((mf - 1 - ((stage1 d mf scene).length : ℤ)) + 2 : ℤ) : ℚ))
      (List.range' 1 (mf - 1 - ((stage1 d mf scene).length : ℤ)).toNat)
      (stage1 d mf scene)
    have h3 : (List.range' 1
        (mf - 1 - ((stage1 d mf scene).length : ℤ)).toNat).length
        = (mf - 1 - ((stage1 d mf scene).length : ℤ)).toNat := by
      rw [List.length_range']
    omega
  · exact h1

theorem addLast_length_le (d : ℚ) (ts : List ℚ) :
    (addLast d ts).length ≤ ts.length + 1 := by
  unfold addLast
  split_ifs <;> simp

/-- C2 (amended): for `maxFrames ≥ 2` (all decodes succeeding, any scene
candidates), the result satisfies `0 < len ≤ maxFrames` when
`duration > 0`, and `len = 0` when `duration ≤ 0`.  The original claim's
range `maxFrames ≥ 1` fails: for `maxFrames = 1` both anchors are still
collected, giving 2 frames (see the counterexample). -/
theorem result_length_bounds (d : ℚ) (mf : ℤ) (scene : List ℚ) (hmf : 2 ≤ mf) :
    (0 < d → 0 < (extractPure d mf scene).length ∧
      ((extractPure d mf scene).length : ℤ) ≤ mf)
    ∧ (d ≤ 0 → (extractPure d mf scene).length = 0) := by
  constructor
  · intro hd
    have hd' : ¬ d ≤ 0 := not_le.mpr hd
    constructor
    · have h1 : firstTime d ∈ extractPure d mf scene :=
        mem_extractPure hd' (addLast_mem (stage2_mem (mem_stage1_first d mf scene)))
      exact List.length_pos.mpr (List.ne_nil_of_mem h1)
    · have h2 : (extractPure d mf scene).length
          = (addLast d (stage2 d mf scene)).length := by
        unfold extractPure
        rw [if_neg hd']
        exact (List.perm_insertionSort _ _).length_eq
      have h3 := addLast_length_le d (stage2 d mf scene)
      have h4 := stage2_length d mf scene hmf
      omega
  · intro hle
    simp [extractPure, if_pos hle]

/-- Witness for C2 at `duration = 10`, `maxFrames = 7`, no scene
candidates. -/
theorem result_length_bounds_witness :
    (2 : ℤ) ≤ 7 ∧ (0 < (extractPure 10 7 []).length ∧
      ((extractPure 10 7 []).length : ℤ) ≤ 7) :=
  ⟨by norm_num, (result_length_bounds 10 7 [] (by norm_num)).1 (by norm_num)⟩

/-- Counterexample to C2 as stated: at `maxFrames = 1` (and `duration = 10`)
the code returns both anchors, so the result has 2 > 1 entries. -/
theorem result_length_bounds_cex :
    extractPure 10 1 [] = [1/2, 19/2] ∧ ¬ ((extractPure 10 1 []).length ≤ 1) := by
  have h : extractPure 10 1 [] = [1/2, 19/2] := by
    with_unfolding_all rfl
  exact ⟨h, by rw [h]; norm_num⟩

theorem mem_getLast_getD {l : List ℚ} (h : l ≠ []) : l.getLast?.getD 0 ∈ l := by
  induction l with
  | nil => exact absurd rfl h
  | cons a t ih =>
    cases t with
    | nil => simp
    | cons b u =>
      rw [List.getLast?_cons_cons]
      exact List.mem_cons_of_mem a (ih (List.cons_ne_nil b u))

theorem sorted_le_getLast {l : List ℚ} (hs : List.Sorted (· ≤ ·) l) {x : ℚ}
    (hx : x ∈ l) : x ≤ l.getLast?.getD 0 := by
  induction l with
  | nil => exact absurd hx (List.not_mem_nil x)
  | cons a t ih =>
    cases t with
    | nil =>
      rw [List.mem_singleton] at hx
      simp [hx]
    | cons b u =>
      rw [List.getLast?_cons_cons]
      rcases List.mem_cons.mp hx with rfl | hx'
      · have hb : (b :: u).getLast?.getD 0 ∈ b :: u :=
          mem_getLast_getD (List.cons_ne_nil b u)
        exact List.rel_of_sorted_cons hs _ hb
      · exact ih hs.of_cons hx'

theorem sorted_head_le {l : List ℚ} (hs : List.Sorted (· ≤ ·) l) {x : ℚ}
    (hx : x ∈ l) : l.head?.getD 0 ≤ x := by
  cases l with
  | nil => exact absurd hx (List.not_mem_nil x)
  | cons a t =>
    rcases List.mem_cons.mp hx with rfl | hx'
    · simp
    · simpa using List.rel_of_sorted_cons hs x hx'

/-- C4 (amended): whenever `duration > 0` and at least 2 frames are
returned, the first returned timestamp is at most `min(0.5, duration*0.1)`
and the last returned timestamp is strictly greater than
`max(duration-0.5, duration*0.9) - 1.0`.  The original lower bound
`last ≥ max(duration-0.5, duration*0.9)` fails when the end anchor is
dropped by the 1.0s proximity check (lines 284-287); in that case some
already-chosen timestamp within 1.0s below the anchor is the maximum. -/
theorem anchor_coverage (d : ℚ) (mf : ℤ) (scene : List ℚ) (hd : 0 < d)
    (h2 : 2 ≤ (extractPure d mf scene).length) :
    (extractPure d mf scene).head?.getD 0 ≤ firstTime d ∧
    lastTime d - 1 < (extractPure d mf scene).getLast?.getD 0 := by
  have hd' : ¬ d ≤ 0 := not_le.mpr hd
  have heq : extractPure d mf scene
      = List.insertionSort (· ≤ ·) (addLast d (stage2 d mf scene)) := by
    unfold extractPure
    rw [if_neg hd']
  have hsorted : List.Sorted (· ≤ ·) (extractPure d mf scene) := by
    rw [heq]
    exact List.sorted_insertionSort _ _
  have hperm := List.perm_insertionSort (· ≤ ·) (addLast d (stage2 d mf scene))
  have hmem : ∀ {a : ℚ}, a ∈ addLast d (stage2 d mf scene) →
      a ∈ extractPure d mf scene := fun h => by
    rw [heq]
    exact hperm.mem_iff.mpr h
  constructor
  · exact sorted_head_le hsorted
      (hmem (addLast_mem (stage2_mem (mem_stage1_first d mf scene))))
  · by_cases hf : farFrom (stage2 d mf scene) (lastTime d) = true
    · have hlt : lastTime d ∈ addLast d (stage2 d mf scene) := by
        unfold addLast
        rw [if_pos hf]
        exact List.mem_append_right _ (List.mem_singleton.mpr rfl)
      have h3 := sorted_le_getLast hsorted (hmem hlt)
      linarith
    · have hf' : farFrom (stage2 d mf scene) (lastTime d) = false :=
        Bool.eq_false_iff.mpr hf
      obtain ⟨u, hu, hclose⟩ := farFrom_false hf'
      have h4 : lastTime d - u < 1 := lt_of_le_of_lt (le_abs_self _) hclose
      have h5 := sorted_le_getLast hsorted (hmem (addLast_mem hu))
      linarith

/-- Witness for C4 at `duration = 10`, `maxFrames = 3`, one scene candidate
at 8.6 seconds. -/
theorem anchor_coverage_witness :
    (0 : ℚ) < 10 ∧ 2 ≤ (extractPure 10 3 [43/5]).length ∧
    ((extractPure 10 3 [43/5]).head?.getD 0 ≤ firstTime 10 ∧
     lastTime 10 - 1 < (extractPure 10 3 [43/5]).getLast?.getD 0) := by
  have h : extractPure 10 3 [43/5] = [1/2, 43/5] := by
    with_unfolding_all rfl
  have h2 : 2 ≤ (extractPure 10 3 [43/5]).length := by
    rw [h]
    norm_num
  exact ⟨by norm_num, h2, anchor_coverage 10 3 [43/5] (by norm_num) h2⟩

/-- Counterexample to C4 as stated: `duration = 10`, `maxFrames = 3` with a
scene candidate at 8.6s.  The end anchor 9.5 is within 1.0s of 8.6 and is
dropped, so exactly `[0.5, 8.6]` is returned: 2 frames whose last
timestamp 8.6 is strictly below `max(10-0.5, 10*0.9) = 9.5`. -/
theorem anchor_coverage_cex :
    extractPure 10 3 [43/5] = [1/2, 43/5] ∧
    (extractPure 10 3 [43/5]).getLast?.getD 0 < lastTime 10 := by
  have h : extractPure 10 3 [43/5] = [1/2, 43/5] := by
    with_unfolding_all rfl
  refine ⟨h, ?_⟩
  rw [h]
  have : lastTime 10 = 19/2 := by
    unfold lastTime
    norm_num
  rw [this]
  norm_num

/-- Lines 218-219: `frame_diff = cv2.absdiff(prev_gray, curr_gray);
mean_diff = np.mean(frame_diff)` — the mean absolute per-pixel intensity
difference of two equally shaped frames. -/
def meanAbsDiff (f g : Frame) : ℚ :=
  (List.zipWith (fun a b => |a - b|) f g).sum / (f.length : ℚ)

/-- Line 209 guard, `scene_timestamps and (frame_time - scene_timestamps[-1]
< min_scene_length)`: the emitted-candidate accumulator is kept reversed,
so its head is the most recently emitted timestamp. -/
def tooClose (racc : List ℚ) (t ml : ℚ) : Bool :=
  match racc with
  | [] => false
  | last :: _ => decide (t - last < ml)

/-- The scene-change scan loop of lines 192-234.  State: `prev` is
`prev_frame` (only updated by frames that pass both `continue` filters),
`racc` the reversed `scene_timestamps`, `count` the running `frame_count`;
`t = frame_count / fps` (line 201).  A frame before `first_time` is
skipped (lines 205-206), a frame within `min_scene_length` of the last
emitted candidate is skipped (lines 209-210), otherwise the mean absolute
difference against `prev` is compared with the threshold (lines 212-222);
on emission the stored time is `min(frame_time, duration)` when
`duration > 60` (lines 224-226), and the loop breaks once `mid` candidates
exist (lines 231-232). -/
def sceneScanAux (fps ft ml th dur : ℚ) (mid : ℤ) :
    Option Frame → List ℚ → ℕ → List Frame → List ℚ
  | _, racc, _, [] => racc.reverse
  | prev, racc, count, f :: rest =>
    let t : ℚ := (count : ℚ) / fps
    if t < ft then sceneScanAux fps ft ml th dur mid prev racc (count + 1) rest
    else if tooClose racc t ml then
      sceneScanAux fps ft ml th dur mid prev racc (count + 1) rest
    else
      match prev with
      | none => sceneScanAux fps ft ml th dur mid (some f) racc (count + 1) rest
      | some p =>
        if th < meanAbsDiff p f then
          let ot := if 60 < dur then min t dur else t
          if mid ≤ (racc.length : ℤ) + 1 then (ot :: racc).reverse
          else sceneScanAux fps ft ml th dur mid (some f) (ot :: racc) (count + 1) rest
        else sceneScanAux fps ft ml th dur mid (some f) racc (count + 1) rest

/-- The scene-change scan, started with no previous frame, no candidates
and `frame_count = 0` (lines 192-194). -/
def sceneScan (fps ft ml th dur : ℚ) (mid : ℤ) (frames : List Frame) : List ℚ :=
  sceneScanAux fps ft ml th dur mid none [] 0 frames

/-- Lines 177-183: the duration of the stream actually scanned — the first
60 seconds for videos longer than a minute, otherwise the whole video. -/
def subclipDuration (d : ℚ) : ℚ := if 60 < d then 60 else d

/-- Line 190: `min_scene_length = max(1.0, subclip_duration /
(middle_frames * 2))`. -/
def minSceneLength (d : ℚ) (middle : ℤ) : ℚ :=
  max 1 (subclipDuration d / ((middle * 2 : ℤ) : ℚ))

/-- The sampler composed with the scan: under the gate of line 170 the
scan runs over the decoded frame stream of the (re-encoded) subclip with
threshold 30.0 (line 189) and the spacing of line 190; its output is the
`scene_timestamps` list consumed by lines 240-252. -/
def extractFull (d : ℚ) (mf : ℤ) (fps : ℚ) (stream : List Frame) : List ℚ :=
  extractPure d mf
    (if 3 < d ∧ 0 < mf - 2 then
      sceneScan fps (firstTime d) (minSceneLength d (mf - 2)) 30 d (mf - 2) stream
    else [])

/-- Any two distinct members of the list are at least 1.0 apart. -/
def Spaced (l : List ℚ) : Prop :=
  ∀ a ∈ l, ∀ b ∈ l, a ≠ b → 1 ≤ |a - b|

theorem spaced_nil : Spaced [] := by
  intro a ha
  exact absurd ha (List.not_mem_nil a)

theorem spaced_append_one {ts : List ℚ} {t : ℚ} (h : Spaced ts)
    (hf : ∀ u ∈ ts, 1 ≤ |t - u|) : Spaced (ts ++ [t]) := by
  intro a ha b hb hne
  rcases List.mem_append.mp ha with ha' | ha' <;>
    rcases List.mem_append.mp hb with hb' | hb'
  · exact h a ha' b hb' hne
  · rw [List.mem_singleton] at hb'
    subst hb'
    rw [abs_sub_comm]
    exact hf a ha'
  · rw [List.mem_singleton] at ha'
    subst ha'
    exact hf b hb'
  · rw [List.mem_singleton] at ha' hb'
    subst ha'
    subst hb'
    exact absurd rfl hne

theorem uniformStep_spaced {d ft step : ℚ} {ts : List ℚ} (h : Spaced ts)
    (i : ℕ) : Spaced (uniformStep d ft step ts i) := by
  simp only [uniformStep]
  split_ifs with hf
  · exact spaced_append_one h (farFrom_far hf)
  · exact h

theorem uniformFill_spaced (d ft step : ℚ) (idxs : List ℕ) :
    ∀ {ts : List ℚ}, Spaced ts → Spaced (uniformFill d ft step ts idxs) := by
  induction idxs with
  | nil => exact fun h => h
  | cons i is ih => exact fun h => ih (uniformStep_spaced h i)

theorem addLast_spaced {d : ℚ} {ts : List ℚ} (h : Spaced ts) :
    Spaced (addLast d ts) := by
  unfold addLast
  split_ifs with hf
  · exact spaced_append_one h (farFrom_far hf)
  · exact h

theorem stage1_spaced {d : ℚ} {mf : ℤ} {scene : List ℚ} (hsc : Spaced scene) :
    Spaced (stage1 d mf scene) := by
  unfold stage1
  split_ifs with h
  · intro a ha b hb hne
    rcases List.mem_cons.mp ha with rfl | ha' <;>
      rcases List.mem_cons.mp hb with rfl | hb'
    · exact absurd rfl hne
    · rw [abs_sub_comm]
      exact (sceneAccept_mem hb').2.1
    · exact (sceneAccept_mem ha').2.1
    · have hsa : a ∈ scene :=
        sortedSet_subset (List.mem_of_mem_take (sceneAccept_mem ha').1)
      have hsb : b ∈ scene :=
        sortedSet_subset (List.mem_of_mem_take (sceneAccept_mem hb').1)
      exact hsc a hsa b hsb hne
  · intro a ha b hb hne
    rw [List.mem_singleton] at ha hb
    subst ha
    subst hb
    exact absurd rfl hne

theorem stage2_spaced {d : ℚ} {mf : ℤ} {scene : List ℚ} (hsc : Spaced scene) :
    Spaced (stage2 d mf scene) := by
  simp only [stage2]
  split_ifs with h
  · exact uniformFill_spaced _ _ _ _ (stage1_spaced hsc)
  · exact stage1_spaced hsc

theorem extractPure_spaced {d : ℚ} {mf : ℤ} {scene : List ℚ}
    (hsc : Spaced scene) : Spaced (extractPure d mf scene) := by
  unfold extractPure
  split_ifs with h
  · exact spaced_nil
  · intro a ha b hb hne
    have hp := List.perm_insertionSort (· ≤ ·) (addLast d (stage2 d mf scene))
    exact addLast_spaced (stage2_spaced hsc) a (hp.mem_iff.mp ha) b
      (hp.mem_iff.mp hb) hne

theorem tooClose_false_head {racc : List ℚ} {t ml : ℚ}
    (h : tooClose racc t ml = false) :
    ∀ x ∈ racc.head?, x + ml ≤ t := by
  cases racc with
  | nil => intro x hx; exact absurd hx (by simp)
  | cons last r =>
    intro x hx
    rw [List.head?_cons, Option.mem_some_iff] at hx
    have h1 : ¬ (t - last < ml) := by
      simpa [tooClose] using h
    rw [← hx]
    linarith [not_lt.mp h1]

theorem sceneScanAux_chain (fps ft ml th dur : ℚ) (mid : ℤ) (hfps : 0 < fps) :
    ∀ (frames : List Frame) (prev : Option Frame) (racc : List ℚ) (count : ℕ),
      (60 < dur → (count : ℚ) + (frames.length : ℚ) ≤ fps * dur) →
      List.Chain' (fun x y => y + ml ≤ x) racc →
      List.Chain' (fun x y => x + ml ≤ y)
        (sceneScanAux fps ft ml th dur mid prev racc count frames) := by
  intro frames
  induction frames with
  | nil =>
    intro prev racc count _ hracc
    exact List.chain'_reverse.mpr hracc
  | cons f rest ih =>
    intro prev racc count h hracc
    have hstep : 60 < dur → ((count + 1 : ℕ) : ℚ) + (rest.length : ℚ) ≤ fps * dur := by
      intro h6
      have h7 := h h6
      simp only [List.length_cons] at h7
      push_cast at h7 ⊢
      linarith
    have hot : (if 60 < dur then min ((count : ℚ) / fps) dur
        else ((count : ℚ) / fps)) = (count : ℚ) / fps := by
      split_ifs with h6
      · apply min_eq_left
        have h7 := h h6
        simp only [List.length_cons] at h7
        push_cast at h7
        have h0 : (0 : ℚ) ≤ (rest.length : ℚ) := Nat.cast_nonneg _
        have h8 : (count : ℚ) < fps * dur := by linarith
        have h9 : (count : ℚ) / fps < dur := by
          rw [div_lt_iff₀ hfps]
          linarith
        exact h9.le
      · rfl
    cases prev with
    | none =>
      simp only [sceneScanAux]
      split_ifs
      · exact ih none racc (count + 1) hstep hracc
      · exact ih none racc (count + 1) hstep hracc
      · exact ih (some f) racc (count + 1) hstep hracc
    | some p =>
      simp only [sceneScanAux]
      rw [hot]
      split_ifs with h1 h2 h3 h4
      · exact ih (some p) racc (count + 1) hstep hracc
      · exact ih (some p) racc (count + 1) hstep hracc
      · exact List.chain'_reverse.mpr
          (List.chain'_cons'.mpr ⟨tooClose_false_head (Bool.eq_false_iff.mpr h2), hracc⟩)
      · exact ih (some f) ((count : ℚ) / fps :: racc) (count + 1) hstep
          (List.chain'_cons'.mpr ⟨tooClose_false_head (Bool.eq_false_iff.mpr h2), hracc⟩)
      · exact ih (some f) racc (count + 1) hstep hracc

theorem sceneScan_spaced (fps ft ml th dur : ℚ) (mid : ℤ) (frames : List Frame)
    (hfps : 0 < fps) (hml : 1 ≤ ml)
    (hlen : 60 < dur → (frames.length : ℚ) ≤ fps * dur) :
    Spaced (sceneScan fps ft ml th dur mid frames) := by
  have hch := sceneScanAux_chain fps ft ml th dur mid hfps frames none [] 0
    (by
      intro h6
      have := hlen h6
      push_cast
      linarith)
    List.chain'_nil
  haveI : IsTrans ℚ (fun x y => x + ml ≤ y) :=
    ⟨fun a b c hab hbc => by
      have hab' : a + ml ≤ b := hab
      have hbc' : b + ml ≤ c := hbc
      show a + ml ≤ c
      linarith⟩
  have hpw : List.Pairwise (fun x y => x + ml ≤ y)
      (sceneScan fps ft ml th dur mid frames) :=
    List.chain'_iff_pairwise.mp hch
  have hpw2 : List.Pairwise (fun x y => (1 : ℚ) ≤ |x - y|)
      (sceneScan fps ft ml th dur mid frames) := by
    refine hpw.imp ?_
    intro a b hab
    rw [abs_sub_comm, abs_of_nonneg (by linarith)]
    linarith
  intro a ha b hb hne
  exact hpw2.forall (fun x y hxy => by rwa [abs_sub_comm]) ha hb hne

/-- C10: for every video and every maxFrames (all decodes succeeding, the
decoded stream having at most `fps * duration` frames when the video is
longer than a minute), any two distinct timestamps returned by the sampler
composed with its scene-change scan differ by at least 1.0 second — not
only adjacent ones, with no relaxation for short videos: a candidate that
would land within 1.0s of any already-chosen timestamp is dropped rather
than the spacing being relaxed. -/
theorem returned_timestamps_min_spacing (d : ℚ) (mf : ℤ) (fps : ℚ)
    (stream : List Frame) (hfps : 0 < fps)
    (hlen : 60 < d → (stream.length : ℚ) ≤ fps * d) :
    ∀ a ∈ extractFull d mf fps stream, ∀ b ∈ extractFull d mf fps stream,
      a ≠ b → 1 ≤ |a - b| := by
  have hsc : Spaced (if 3 < d ∧ 0 < mf - 2 then
      sceneScan fps (firstTime d) (minSceneLength d (mf - 2)) 30 d (mf - 2) stream
    else []) := by
    split_ifs
    · exact sceneScan_spaced fps (firstTime d) (minSceneLength d (mf - 2)) 30 d
        (mf - 2) stream hfps (le_max_left 1 _) hlen
    · exact spaced_nil
  exact extractPure_spaced hsc

/-- Witness for C10 at `duration = 10`, `maxFrames = 7`, `fps = 1`, empty
decoded stream: the first and last returned timestamps are 1.0 apart or
more. -/
theorem returned_timestamps_min_spacing_witness :
    (0 : ℚ) < 1 ∧ (1 : ℚ) ≤ |(1/2 : ℚ) - 19/2| := by
  have hl : extractFull 10 7 1 [] =
      [1/2, 27/14, 47/14, 67/14, 87/14, 107/14, 19/2] := by
    with_unfolding_all rfl
  refine ⟨by norm_num, ?_⟩
  exact returned_timestamps_min_spacing 10 7 1 [] (by norm_num)
    (fun h6 => absurd h6 (by norm_num)) (1/2) (by rw [hl]; simp) (19/2)
    (by rw [hl]; simp) (by norm_num)

/-- The spacing formula as the claim states it: `max(1.0, windowDuration /
(maxScenes * 2))` with `windowDuration = duration - firstTime` capped at
60 seconds and `maxScenes = maxFrames - 2`.  This definition follows the
claim's words, to be compared with `minSceneLength` from the source. -/
def claimMinSpacing (d : ℚ) (mf : ℤ) : ℚ :=
  max 1 (min (d - firstTime d) 60 / (((mf - 2) * 2 : ℤ) : ℚ))

/-- Counterexample to C7 as stated: at `duration = 50`, `maxFrames = 7` the
code uses `max(1, 50/10) = 5` (the subclip duration is the full 50s,
measured from 0), while the claim's formula gives
`max(1, (50 - 0.5)/10) = 4.95`. -/
theorem scene_spacing_formula_cex :
    minSceneLength 50 (7 - 2) = 5 ∧ claimMinSpacing 50 7 = 99/20 ∧
    (5 : ℚ) ≠ 99/20 := by
  refine ⟨?_, ?_, by norm_num⟩
  · with_unfolding_all rfl
  · with_unfolding_all rfl

/-- C7 (amended): the minimum inter-scene spacing used by the scan equals
`max(1.0, subclipDuration / ((maxFrames - 2) * 2))`, where
`subclipDuration = min(duration, 60)` is the scanned-stream duration
measured from time 0 — not `duration - firstTime` as the claim stated. -/
theorem scene_spacing_formula (d : ℚ) (mf : ℤ) :
    minSceneLength d (mf - 2) = max 1 (min d 60 / (((mf - 2) * 2 : ℤ) : ℚ)) := by
  unfold minSceneLength subclipDuration
  congr 1
  congr 1
  split_ifs with h
  · exact (min_eq_right h.le).symm
  · exact (min_eq_left (not_lt.mp h)).symm

/-- The decoded stream with each frame paired with its timestamp
`index / fps`, indices starting at `count`. -/
def timedFrom (fps : ℚ) : ℕ → List Frame → List (ℚ × Frame)
  | _, [] => []
  | c, f :: rest => ((c : ℚ) / fps, f) :: timedFrom fps (c + 1) rest

/-- The scan rule of the amended claim C5, over the timestamped stream:
a frame before the window start, or within `ml` of the last emitted
candidate, is skipped without becoming the retained comparison frame; an
unskipped frame is compared against the retained frame (after an emission
this is the emitting frame, not necessarily the adjacent one) and emits
its own timestamp when the mean absolute difference exceeds the threshold;
the first candidate needs no minimum distance from the window start; the
scan stops once `maxS` candidates are emitted. -/
def amendedScanAux (ws ml th : ℚ) (maxS : ℤ) :
    Option Frame → List ℚ → List (ℚ × Frame) → List ℚ
  | _, racc, [] => racc.reverse
  | retained, racc, (t, f) :: rest =>
    if t < ws then amendedScanAux ws ml th maxS retained racc rest
    else if tooClose racc t ml then amendedScanAux ws ml th maxS retained racc rest
    else
      match retained with
      | none => amendedScanAux ws ml th maxS (some f) racc rest
      | some p =>
        if th < meanAbsDiff p f then
          if maxS ≤ (racc.length : ℤ) + 1 then (t :: racc).reverse
          else amendedScanAux ws ml th maxS (some f) (t :: racc) rest
        else amendedScanAux ws ml th maxS (some f) racc rest

def amendedScan (ws ml th : ℚ) (maxS : ℤ) (fps : ℚ) (frames : List Frame) :
    List ℚ :=
  amendedScanAux ws ml th maxS none [] (timedFrom fps 0 frames)

theorem sceneScanAux_eq_amended (fps ft ml th dur : ℚ) (mid : ℤ)
    (hfps : 0 < fps) :
    ∀ (frames : List Frame) (prev : Option Frame) (racc : List ℚ) (count : ℕ),
      (60 < dur → (count : ℚ) + (frames.length : ℚ) ≤ fps * dur) →
      sceneScanAux fps ft ml th dur mid prev racc count frames
        = amendedScanAux ft ml th mid prev racc (timedFrom fps count frames) := by
  intro frames
  induction frames with
  | nil => intro prev racc count _; rfl
  | cons f rest ih =>
    intro prev racc count h
    have hstep : 60 < dur → ((count + 1 : ℕ) : ℚ) + (rest.length : ℚ) ≤ fps * dur := by
      intro h6
      have h7 := h h6
      simp only [List.length_cons] at h7
      push_cast at h7 ⊢
      linarith
    have hot : (if 60 < dur then min ((count : ℚ) / fps) dur
        else ((count : ℚ) / fps)) = (count : ℚ) / fps := by
      split_ifs with h6
      · apply min_eq_left
        have h7 := h h6
        simp only [List.length_cons] at h7
        push_cast at h7
        have h0 : (0 : ℚ) ≤ (rest.length : ℚ) := Nat.cast_nonneg _
        have h8 : (count : ℚ) < fps * dur := by linarith
        have h9 : (count : ℚ) / fps < dur := by
          rw [div_lt_iff₀ hfps]
          linarith
        exact h9.le
      · rfl
    cases prev with
    | none =>
      simp only [sceneScanAux, timedFrom, amendedScanAux]
      split_ifs
      · exact ih none racc (count + 1) hstep
      · exact ih none racc (count + 1) hstep
      · exact ih (some f) racc (count + 1) hstep
    | some p =>
      simp only [sceneScanAux, timedFrom, amendedScanAux]
      rw [hot]
      split_ifs
      · exact ih (some p) racc (count + 1) hstep
      · exact ih (some p) racc (count + 1) hstep
      · rfl
      · exact ih (some f) ((count : ℚ) / fps :: racc) (count + 1) hstep
      · exact ih (some f) racc (count + 1) hstep

/-- C5 (amended): the scene-change scan emits exactly according to the
retained-frame rule of `amendedScan`: the difference is measured against
the most recently retained frame (after an emission possibly the emitting
frame rather than the adjacent one), subsequent candidates must be at
least `min_scene_length` after the previous one, and the first candidate
needs no minimum distance from the window start.  The side conditions say
the decoder reports a positive frame rate and at most `fps * duration`
frames for videos longer than a minute (so the stored time
`min(frame_time, duration)` of line 226 is the frame's own timestamp). -/
theorem scan_matches_amended_rule (fps ft ml th dur : ℚ) (mid : ℤ)
    (frames : List Frame) (hfps : 0 < fps)
    (hlen : 60 < dur → (frames.length : ℚ) ≤ fps * dur) :
    sceneScan fps ft ml th dur mid frames = amendedScan ft ml th mid fps frames := by
  unfold sceneScan amendedScan
  exact sceneScanAux_eq_amended fps ft ml th dur mid hfps frames none [] 0
    (by
      intro h6
      have := hlen h6
      push_cast
      linarith)

/-- Witness for C5's amended rule at `fps = 1`, window start 0.5, spacing 5,
threshold 30, duration 10, budget 5, on a three-frame stream. -/
theorem scan_matches_amended_rule_witness :
    (0 : ℚ) < 1 ∧
    sceneScan 1 (1/2) 5 30 10 5 [[0], [0], [100]]
      = amendedScan (1/2) 5 30 5 1 [[0], [0], [100]] :=
  ⟨by norm_num,
    scan_matches_amended_rule 1 (1/2) 5 30 10 5 [[0], [0], [100]] (by norm_num)
      (fun h6 => absurd h6 (by norm_num))⟩

/-- One timestamped adjacent pair per consecutive frame couple: the second
frame's timestamp together with the two frames. -/
def adjPairsAux (fps : ℚ) : ℕ → Frame → List Frame → List (ℚ × Frame × Frame)
  | _, _, [] => []
  | c, f, g :: rest => (((c + 1 : ℕ) : ℚ) / fps, f, g) :: adjPairsAux fps (c + 1) g rest

def adjPairs (fps : ℚ) : List Frame → List (ℚ × Frame × Frame)
  | [] => []
  | f :: rest => adjPairsAux fps 0 f rest

/-- The scan rule exactly as claim C5 states it, following the claim's
words: a candidate cut is emitted at a frame's timestamp exactly when the
mean absolute per-pixel intensity difference between that frame and the
immediately adjacent previous frame exceeds the threshold AND the
timestamp is at least `ml` after the previously emitted candidate, or at
least `ml` after the window start when no candidate has been emitted yet
(`lastE.getD ws` is the previous candidate, or the window start if none). -/
def claimScanAux (ws ml th : ℚ) (maxS : ℤ) :
    Option ℚ → List ℚ → List (ℚ × Frame × Frame) → List ℚ
  | _, racc, [] => racc.reverse
  | lastE, racc, (t, p, f) :: rest =>
    if t < ws then claimScanAux ws ml th maxS lastE racc rest
    else
      if th < meanAbsDiff p f ∧ lastE.getD ws + ml ≤ t then
        if maxS ≤ (racc.length : ℤ) + 1 then (t :: racc).reverse
        else claimScanAux ws ml th maxS (some t) (t :: racc) rest
      else claimScanAux ws ml th maxS lastE racc rest

def claimScan (ws ml th : ℚ) (maxS : ℤ) (fps : ℚ) (frames : List Frame) :
    List ℚ :=
  claimScanAux ws ml th maxS none [] (adjPairs fps frames)

/-- Counterexample to C5 as stated, on two concrete streams (fps 1).
Stream 1 (window start 0.5, spacing 5, budget 1): the code emits the very
first candidate at t=2 with no minimum distance from the window start,
while the claim's rule emits nothing (2 < 0.5 + 5).  Stream 2 (window
start 0.5, spacing 2, budget 2): after the shared emission at t=3 the code
skips t=4 and then compares t=5 against the retained frame from t=3
(difference 1, no cut), while the claim's adjacent-pair rule sees
difference 99 at t=5 and emits; so the code yields [3] and the claim's
rule yields [3, 5]. -/
theorem scan_claim_cex :
    sceneScan 1 (1/2) 5 30 10 1 [[0], [0], [100]] = [2] ∧
    claimScan (1/2) 5 30 1 1 [[0], [0], [100]] = [] ∧
    sceneScan 1 (1/2) 2 30 8 2 [[0], [0], [0], [100], [0], [99]] = [3] ∧
    claimScan (1/2) 2 30 2 1 [[0], [0], [0], [100], [0], [99]] = [3, 5] := by
  refine ⟨?_, ?_, ?_, ?_⟩ <;> with_unfolding_all rfl

/-- The accepted-scene decode loop of lines 244-252 with the decode oracle:
a candidate passing the filters of lines 246-249 is decoded by
`get_frame` (line 251); if that decode raises, the exception aborts the
loop (the candidates decoded so far stay in `frames`/`timestamps`) and is
caught by the handler at line 254. -/
def sceneTryLoop (dec : ℚ → Bool) (d ft : ℚ) : List ℚ → List ℚ
  | [] => []
  | t :: rest =>
    if decide (1 ≤ |t - ft|) && decide (1 ≤ d - t) then
      if dec t then t :: sceneTryLoop dec d ft rest else []
    else sceneTryLoop dec d ft rest

/-- Stage 1 with the decode oracle and the outcome of the scene-detection
try-block (lines 171-257): `Except.error` models any exception raised
before the accept loop reaches its first decode (re-encode failure, a
failure inside the scan, ...), which line 254 catches, leaving only the
first anchor. -/
def stage1E (d : ℚ) (mf : ℤ) (dec : ℚ → Bool)
    (detect : Except Unit (List ℚ)) : List ℚ :=
  if 3 < d ∧ 0 < mf - 2 then
    match detect with
    | .error _ => [firstTime d]
    | .ok scene =>
        firstTime d :: sceneTryLoop dec d (firstTime d)
          ((sortedSet scene).take (mf - 2).toNat)
  else [firstTime d]

/-- The uniform-fallback loop with the decode oracle: the `get_frame` call
of line 277 is outside every try-block, so its failure propagates. -/
def uniformFillE (dec : ℚ → Bool) (d ft step : ℚ) :
    List ℚ → List ℕ → Except Unit (List ℚ)
  | ts, [] => .ok ts
  | ts, i :: is =>
    let t := min (ft + (i : ℚ) * step) (d - 1)
    if farFrom ts t then
      if dec t then uniformFillE dec d ft step (ts ++ [t]) is else .error ()
    else uniformFillE dec d ft step ts is

/-- Stage 2 with the decode oracle. -/
def stage2E (d : ℚ) (mf : ℤ) (dec : ℚ → Bool)
    (detect : Except Unit (List ℚ)) : Except Unit (List ℚ) :=
  let ts1 := stage1E d mf dec detect
  if (ts1.length : ℤ) < mf - 1 then
    uniformFillE dec d (firstTime d)
      (d / (((mf - 1 - (ts1.length : ℤ)) + 2 : ℤ) : ℚ)) ts1
      (List.range' 1 (mf - 1 - (ts1.length : ℤ)).toNat)
  else .ok ts1

/-- The end-anchor step with the decode oracle: the `get_frame` call of
line 286 is outside every try-block, so its failure propagates. -/
def addLastE (dec : ℚ → Bool) (d : ℚ) (ts : List ℚ) : Except Unit (List ℚ) :=
  if farFrom ts (lastTime d) then
    if dec (lastTime d) then .ok (ts ++ [lastTime d]) else .error ()
  else .ok ts

/-- `extract_strategic_frames` with Python exception behaviour: `dec t`
says whether `video.get_frame(t)` succeeds, `detect` is the outcome of the
scene-detection try-block before its first accept-loop decode.  The
`get_frame` at line 165 (first anchor) runs before the try-block, so its
failure propagates out of the function. -/
def extractE (d : ℚ) (mf : ℤ) (dec : ℚ → Bool)
    (detect : Except Unit (List ℚ)) : Except Unit (List ℚ) :=
  if d ≤ 0 then .ok [] else
  if dec (firstTime d) then
    match stage2E d mf dec detect with
    | .error _ => .error ()
    | .ok ts2 =>
      match addLastE dec d ts2 with
      | .error _ => .error ()
      | .ok ts3 => .ok (List.insertionSort (· ≤ ·) ts3)
  else .error ()

/-- The scene list a detection outcome contributes: its candidates on
success, none when the handler at line 254 caught an exception. -/
def detectResult : Except Unit (List ℚ) → List ℚ
  | .ok s => s
  | .error _ => []

theorem sceneTryLoop_all_true (d ft : ℚ) :
    ∀ l : List ℚ, sceneTryLoop (fun _ => true) d ft l = sceneAccept d ft l := by
  intro l
  induction l with
  | nil => rfl
  | cons t rest ih =>
    simp only [sceneTryLoop, sceneAccept, List.filter_cons]
    split_ifs with h
    · simp only [ih, sceneAccept]
    · simp only [ih, sceneAccept]

theorem stage1E_all_true (d : ℚ) (mf : ℤ) (detect : Except Unit (List ℚ)) :
    stage1E d mf (fun _ => true) detect = stage1 d mf (detectResult detect) := by
  cases detect with
  | ok scene =>
    simp only [stage1E, stage1, detectResult, sceneTryLoop_all_true]
  | error e =>
    simp only [stage1E, stage1, detectResult]
    split_ifs with h
    · rw [show sortedSet ([] : List ℚ) = [] from rfl, List.take_nil]
      rfl
    · rfl

theorem uniformFillE_all_true (d ft step : ℚ) :
    ∀ (idxs : List ℕ) (ts : List ℚ),
      uniformFillE (fun _ => true) d ft step ts idxs
        = .ok (uniformFill d ft step ts idxs) := by
  intro idxs
  induction idxs with
  | nil => intro ts; rfl
  | cons i is ih =>
    intro ts
    simp only [uniformFillE]
    have hu : (Except.ok (uniformFill d ft step ts (i :: is)) : Except Unit (List ℚ))
        = .ok (uniformFill d ft step (uniformStep d ft step ts i) is) := rfl
    rw [hu]
    simp only [uniformStep]
    split_ifs with h1
    · exact ih (ts ++ [min (ft + (i : ℚ) * step) (d - 1)])
    · exact ih ts

theorem addLastE_all_true (d : ℚ) (ts : List ℚ) :
    addLastE (fun _ => true) d ts = .ok (addLast d ts) := by
  simp only [addLastE, addLast]
  split_ifs with h1
  · rfl
  · rfl

theorem stage2E_all_true (d : ℚ) (mf : ℤ) (detect : Except Unit (List ℚ)) :
    stage2E d mf (fun _ => true) detect
      = .ok (stage2 d mf (detectResult detect)) := by
  simp only [stage2E, stage2, stage1E_all_true]
  split_ifs with h
  · exact uniformFillE_all_true d (firstTime d) _ _ _
  · rfl

/-- C1 (amended): exceptions arising inside the scene-detection try-block
(lines 171-257) never propagate — any such failure degrades to the
uniform fallback and, with all other decodes succeeding, the sampler
returns exactly the pure result.  But a `get_frame` failure at the first
anchor (line 165), at a uniform-fallback timestamp (line 277) or at the
end anchor (line 286) is outside every handler and propagates to the
caller; in particular when every timestamp fails to decode the call
raises instead of returning an empty sequence (see the counterexample). -/
theorem sampler_no_raise_refines (d : ℚ) (mf : ℤ)
    (detect : Except Unit (List ℚ)) :
    extractE d mf (fun _ => true) detect
      = .ok (extractPure d mf (detectResult detect)) := by
  simp only [extractE, extractPure, stage2E_all_true, addLastE_all_true]
  split_ifs with h1
  · rfl
  · rfl

/-- Counterexample to C1 as stated: with every decode failing (and scene
detection finding nothing), `duration = 10`, `maxFrames = 7`, the sampler
raises at the first-anchor decode of line 165 instead of returning an
empty sequence. -/
theorem sampler_no_raise_cex :
    extractE 10 7 (fun _ => false) (.ok []) = .error () := by
  with_unfolding_all rfl

/-- C8 (amended): a non-positive duration (including the negative case) is
handled eagerly by returning an empty result before any decode call — the
result is `ok []` even under an oracle where every decode fails — but no
error is signalled to the caller, and `maxFrames < 1` is not validated at
all (see the counterexample: the sampler decodes and returns both anchors
best-effort). -/
theorem nonpositive_duration_early_return (d : ℚ) (mf : ℤ) (dec : ℚ → Bool)
    (detect : Except Unit (List ℚ)) (hd : d ≤ 0) :
    extractE d mf dec detect = .ok [] := by
  simp only [extractE, if_pos hd]

/-- Witness for C8 at `duration = -1` with an all-failing decode oracle. -/
theorem nonpositive_duration_early_return_witness :
    (-1 : ℚ) ≤ 0 ∧ extractE (-1) 7 (fun _ => false) (.ok []) = .ok [] :=
  ⟨by norm_num,
    nonpositive_duration_early_return (-1) 7 (fun _ => false) (.ok []) (by norm_num)⟩

/-- Counterexample to C8 as stated: `maxFrames = 0 < 1` is not rejected —
the sampler performs decode work and returns both anchors `[0.5, 9.5]`
(first conjunct), and under a failing decode oracle the decode attempt is
visible as a propagated exception rather than an eager validation error
(second conjunct). -/
theorem config_validation_cex :
    extractE 10 0 (fun _ => true) (.ok []) = .ok [1/2, 19/2] ∧
    extractE 10 0 (fun _ => false) (.ok []) = .error () := by
  constructor
  · with_unfolding_all rfl
  · with_unfolding_all rfl

/-- An operation of the scene-detection try-block as it affects the
re-encoded temp file on disk: `mktemp` creates it (line 173-174), `rmtemp`
deletes it (line 237), and `work` is any other operation that may raise an
exception (the re-encode of lines 178-182, each scan read of lines
196-234, each accept-loop decode of lines 244-252) without touching the
file. -/
inductive FileOp
  | mktemp
  | work
  | rmtemp

/-- Whether the temp file exists after running the given operations,
starting from the given state. -/
def runOps (ops : List FileOp) (tempExists : Bool) : Bool :=
  ops.foldl
    (fun s op =>
      match op with
      | FileOp.mktemp => true
      | FileOp.rmtemp => false
      | FileOp.work => s)
    tempExists

/-- The operation sequence of the scene-detection step, in source order:
create the temp file (line 173), the re-encode plus `n` scan reads
(lines 178-234), delete the temp file (line 237), then `m` accept-loop
decodes (lines 244-252).  An exception at the `k`-th operation exits the
block to the handler at line 254, which performs no cleanup, so the
exit state after `k` operations is `runOps ((detectionOps n m).take k)
false`; the normal exit is `k = (detectionOps n m).length`. -/
def detectionOps (n m : ℕ) : List FileOp :=
  [FileOp.mktemp] ++ List.replicate (n + 1) FileOp.work
    ++ [FileOp.rmtemp] ++ List.replicate m FileOp.work

theorem runOps_replicate_work (j : ℕ) (b : Bool) :
    runOps (List.replicate j FileOp.work) b = b := by
  induction j with
  | zero => rfl
  | succ k ih => simpa [runOps, List.replicate_succ, List.foldl_cons] using ih

theorem runOps_take_replicate_work (j k : ℕ) (b : Bool) (rest : List FileOp) :
    runOps ((List.replicate j FileOp.work ++ rest).take k) b
      = runOps (rest.take (k - j)) b := by
  rw [List.take_append_eq_append_take, List.take_replicate, List.length_replicate]
  have h1 : runOps (List.replicate (min k j) FileOp.work ++ rest.take (k - j)) b
      = runOps (rest.take (k - j)) (runOps (List.replicate (min k j) FileOp.work) b) := by
    simp [runOps, List.foldl_append]
  rw [h1, runOps_replicate_work]

/-- Counterexample to C9 as stated: with one scan read and one accept-loop
decode, an exception at the re-encode step (the second operation, so only
the first two operations ran) reaches the handler with the temp file still
existing — the detection step exits with the file leaked. -/
theorem temp_cleanup_cex :
    runOps ((detectionOps 1 1).take 2) false = true := by
  rfl

/-- C9 (amended): the temp file is removed only on the straight-line path
(line 237, after the scan and before the accept-loop decodes).  Exactly
the exits after operations `1 ≤ k ≤ n + 2` — an exception during the
re-encode or during the scan — leak the file; the normal exit and every
accept-loop exit (`k = 0` or `k ≥ n + 3`, the removal already done) leave
no file.  Cleanup is therefore NOT guaranteed on all exit paths. -/
theorem temp_file_exit_characterization (n m k : ℕ) :
    runOps ((detectionOps n m).take k) false
      = (decide (1 ≤ k) && decide (k ≤ n + 2)) := by
  cases k with
  | zero => rfl
  | succ j =>
    have h1 : (detectionOps n m).take (j + 1)
        = FileOp.mktemp :: ((List.replicate (n + 1) FileOp.work
            ++ ([FileOp.rmtemp] ++ List.replicate m FileOp.work)).take j) := by
      simp [detectionOps, List.take_succ_cons]
    rw [h1]
    have h2 : ∀ l : List FileOp, runOps (FileOp.mktemp :: l) false = runOps l true := by
      intro l
      rfl
    rw [h2, runOps_take_replicate_work]
    by_cases h3 : j ≤ n + 1
    · have h4 : j - (n + 1) = 0 := by omega
      rw [h4]
      simp only [List.take_zero]
      have : runOps [] true = true := rfl
      rw [this]
      have h5 : (decide (1 ≤ j + 1) && decide (j + 1 ≤ n + 2)) = true := by
        simp
        omega
      rw [h5]
    · have h4 : j - (n + 1) = (j - (n + 2)) + 1 := by omega
      rw [h4]
      have h5 : ([FileOp.rmtemp] ++ List.replicate m FileOp.work).take ((j - (n + 2)) + 1)
          = FileOp.rmtemp :: (List.replicate m FileOp.work).take (j - (n + 2)) := by
        simp [List.take_succ_cons]
      rw [h5]
      have h6 : ∀ l : List FileOp, runOps (FileOp.rmtemp :: l) true = runOps l false := by
        intro l
        rfl
      rw [h6, List.take_replicate, runOps_replicate_work]
      have h7 : (decide (1 ≤ j + 1) && decide (j + 1 ≤ n + 2)) = false := by
        simp
        omega
      rw [h7]
